import Mathlib

/-!
Shallow embedding of the `setsum` crate (src/lib.rs) and verification of its
specification claims.

Modelling conventions:
* Rust `u32` values are `Nat`; wherever the Rust code can overflow or wrap,
  the reduction modulo `2 ^ 32` is written out explicitly.
* The state array `[u32; SETSUM_COLUMNS]` is a function `Fin SETSUM_COLUMNS → Nat`,
  the hash array `[u8; SETSUM_BYTES]` is a function `Fin SETSUM_BYTES → Nat`.
* SHA-256 comes from the external `sha2` crate and is not part of this
  repository, so `item_to_state` and the `Setsum` operations take the hash
  function as an explicit argument `sha256 : Item → Hash`; every theorem below
  holds for an arbitrary choice of that argument.
-/

/-- `SETSUM_BYTES` from src/lib.rs: the number of bytes in the digest. -/
def SETSUM_BYTES : Nat := 32

/-- `SETSUM_BYTES_PER_COLUMN` from src/lib.rs. -/
def SETSUM_BYTES_PER_COLUMN : Nat := 4

/-- `SETSUM_COLUMNS` from src/lib.rs. -/
def SETSUM_COLUMNS : Nat := SETSUM_BYTES / SETSUM_BYTES_PER_COLUMN

/-- The internal representation `[u32; SETSUM_COLUMNS]` of a setsum. -/
abbrev State := Fin SETSUM_COLUMNS → Nat

/-- A hash value `[u8; SETSUM_BYTES]`, one `Nat` per byte. -/
abbrev Hash := Fin SETSUM_BYTES → Nat

/-- An item `&[u8]`: an arbitrary byte string. -/
abbrev Item := List Nat

/-- `SETSUM_PRIMES` from src/lib.rs: one prime per column. -/
def SETSUM_PRIMES : Fin SETSUM_COLUMNS → Nat :=
  ![4294967291, 4294967279, 4294967231, 4294967197,
    4294967189, 4294967161, 4294967143, 4294967111]

/-- `u32::MAX` as a natural number. -/
def U32_MAX : Nat := 4294967295

/-- `2 ^ 32`, the wraparound modulus of `u32` arithmetic. -/
def U32_WRAP : Nat := 4294967296

/-- `add_state` from src/lib.rs: for column `i` the result is
`(lhs[i] + rhs[i]) % SETSUM_PRIMES[i]`.  The Rust code computes the sum in
`u64`, which is exact for `u32` inputs, so plain `Nat` arithmetic models it. -/
def add_state (lhs rhs : State) : State :=
  fun i => (lhs i + rhs i) % SETSUM_PRIMES i

/-- `add_state` together with its `assert!(sum <= u32::MAX as u64)`: the
result is `none` exactly when some column would trip the assertion. -/
def add_state_checked (lhs rhs : State) : Option State :=
  if ∀ i, (lhs i + rhs i) % SETSUM_PRIMES i ≤ U32_MAX then
    some (add_state lhs rhs)
  else
    none

/-- `invert_state` from src/lib.rs: column `i` becomes
`SETSUM_PRIMES[i] - state[i]`.  The subtraction is performed on `u32`, so it
is modelled as wrapping subtraction modulo `2 ^ 32` (release-mode semantics);
whenever `state[i] ≤ SETSUM_PRIMES[i]` no underflow occurs and the value is
the exact difference. -/
def invert_state (state : State) : State :=
  fun i => (SETSUM_PRIMES i + U32_WRAP - state i) % U32_WRAP

instance : NeZero SETSUM_BYTES_PER_COLUMN := ⟨by decide⟩

/-- Index `i * SETSUM_BYTES_PER_COLUMN + j` into a hash buffer. -/
def byteIdx (i : Fin SETSUM_COLUMNS) (j : Fin SETSUM_BYTES_PER_COLUMN) :
    Fin SETSUM_BYTES :=
  ⟨i.val * SETSUM_BYTES_PER_COLUMN + j.val, by
    have h1 : i.val < 8 := i.isLt
    have h2 : j.val < 4 := j.isLt
    show i.val * 4 + j.val < 32
    omega⟩

/-- `u32::from_le_bytes` on four bytes. -/
def u32_from_le_bytes (b0 b1 b2 b3 : Nat) : Nat :=
  b0 + b1 * 256 + b2 * 65536 + b3 * 16777216

/-- `hash_to_state` from src/lib.rs: column `i` is the little-endian `u32`
read from bytes `4*i..4*i+4` of the hash, reduced modulo the column prime. -/
def hash_to_state (hash : Hash) : State :=
  fun i =>
    u32_from_le_bytes (hash (byteIdx i 0)) (hash (byteIdx i 1))
        (hash (byteIdx i 2)) (hash (byteIdx i 3)) %
      SETSUM_PRIMES i

/-- `item_to_state` from src/lib.rs: hash the item with SHA-256 (supplied
externally, see the header) and translate the hash into a state. -/
def item_to_state (sha256 : Item → Hash) (item : Item) : State :=
  hash_to_state (sha256 item)

/-- The `Setsum` struct from src/lib.rs: a single state vector. -/
structure Setsum where
  state : State

/-- The all-zero state `[0u32; SETSUM_COLUMNS]`. -/
def zero_state : State := fun _ => 0

/-- `Setsum::default()` from src/lib.rs: the all-zero state. -/
def Setsum.default : Setsum := ⟨zero_state⟩

/-- `Setsum::insert` from src/lib.rs. -/
def Setsum.insert (sha256 : Item → Hash) (s : Setsum) (item : Item) : Setsum :=
  ⟨add_state s.state (item_to_state sha256 item)⟩

/-- `Setsum::remove` from src/lib.rs. -/
def Setsum.remove (sha256 : Item → Hash) (s : Setsum) (item : Item) : Setsum :=
  ⟨add_state s.state (invert_state (item_to_state sha256 item))⟩

/-- `Setsum::digest` from src/lib.rs: byte `j` of the digest is byte `j % 4`
of `state[j / 4].to_le_bytes()`. -/
def Setsum.digest (s : Setsum) : Fin SETSUM_BYTES → Nat :=
  fun j =>
    s.state
        ⟨j.val / SETSUM_BYTES_PER_COLUMN, by
          have h : j.val < 32 := j.isLt
          show j.val / 4 < 8
          omega⟩ /
      256 ^ (j.val % SETSUM_BYTES_PER_COLUMN) % 256

/-- The `Add` impl for `Setsum` from src/lib.rs. -/
def Setsum.add (lhs rhs : Setsum) : Setsum :=
  ⟨add_state lhs.state rhs.state⟩

/-- The `Sub` impl for `Setsum` from src/lib.rs. -/
def Setsum.sub (lhs rhs : Setsum) : Setsum :=
  ⟨add_state lhs.state (invert_state rhs.state)⟩

/-- Folding `Setsum::insert` over a list of items. -/
def Setsum.insertList (sha256 : Item → Hash) (s : Setsum) (items : List Item) :
    Setsum :=
  items.foldl (Setsum.insert sha256) s

/-- Folding `Setsum::remove` over a list of items. -/
def Setsum.removeList (sha256 : Item → Hash) (s : Setsum) (items : List Item) :
    Setsum :=
  items.foldl (Setsum.remove sha256) s

/-- The invariant of the data model: every stored column value is strictly
below its prime. -/
def isReduced (s : State) : Prop := ∀ i, s i < SETSUM_PRIMES i

instance (s : State) : Decidable (isReduced s) :=
  inferInstanceAs (Decidable (∀ i, s i < SETSUM_PRIMES i))

/-- One application of a public mutating operation of `Setsum`. -/
inductive SetsumOp where
  | insert (item : Item)
  | remove (item : Item)
  | add (other : Setsum)
  | sub (other : Setsum)

/-- Apply one public operation to a running `Setsum`. -/
def applyOp (sha256 : Item → Hash) (s : Setsum) : SetsumOp → Setsum
  | SetsumOp.insert item => s.insert sha256 item
  | SetsumOp.remove item => s.remove sha256 item
  | SetsumOp.add other => s.add other
  | SetsumOp.sub other => s.sub other

/-- Run a sequence of public operations starting from `Setsum::default()`. -/
def applyOps (sha256 : Item → Hash) (ops : List SetsumOp) : Setsum :=
  ops.foldl (applyOp sha256) Setsum.default

/-- Modelled from the spec: the little-endian unsigned 32-bit interpretation
of bytes `4*i .. 4*i+4` of a hash, written as the spec describes it (byte
`4*i+k` weighted by `2 ^ (8*k)`), to be compared with the `u32::from_le_bytes`
call in `hash_to_state`. -/
def le32_spec (hash : Hash) (i : Fin SETSUM_COLUMNS) : Nat :=
  hash ⟨4 * i.val, by have h : i.val < 8 := i.isLt; show 4 * i.val < 32; omega⟩ +
    2 ^ 8 *
      hash ⟨4 * i.val + 1, by
        have h : i.val < 8 := i.isLt; show 4 * i.val + 1 < 32; omega⟩ +
    2 ^ 16 *
      hash ⟨4 * i.val + 2, by
        have h : i.val < 8 := i.isLt; show 4 * i.val + 2 < 32; omega⟩ +
    2 ^ 24 *
      hash ⟨4 * i.val + 3, by
        have h : i.val < 8 := i.isLt; show 4 * i.val + 3 < 32; omega⟩

/-- The state with every column equal to `u32::MAX`; no column is reduced. -/
def u32_max_state : State := fun _ => U32_MAX

/-- A concrete reduced state used to instantiate theorems. -/
def sample_state : State :=
  ![5, 0, 17, 123456789, 1, 2, 3, 4294967110]

/-- A concrete `Setsum` with a reduced state. -/
def sample_setsum : Setsum := ⟨sample_state⟩

/-- A concrete stand-in for the external SHA-256 function, used only to
instantiate universally quantified theorems. -/
def sample_sha : Item → Hash :=
  fun item j => item.foldl (fun acc b => acc * 256 + b % 256) (j.val + 1)

/-! ### Basic facts about the constants and the state operations -/

theorem primes_pos : ∀ i, 0 < SETSUM_PRIMES i := by decide

theorem primes_le_u32_max : ∀ i, SETSUM_PRIMES i ≤ U32_MAX := by decide

theorem primes_lt_wrap : ∀ i, SETSUM_PRIMES i < U32_WRAP := by decide

theorem add_state_lt (lhs rhs : State) (i : Fin SETSUM_COLUMNS) :
    add_state lhs rhs i < SETSUM_PRIMES i :=
  Nat.mod_lt _ (primes_pos i)

theorem add_state_reduced (lhs rhs : State) : isReduced (add_state lhs rhs) :=
  fun i => add_state_lt lhs rhs i

theorem zero_state_reduced : isReduced zero_state :=
  fun i => primes_pos i

theorem hash_to_state_lt (hash : Hash) (i : Fin SETSUM_COLUMNS) :
    hash_to_state hash i < SETSUM_PRIMES i :=
  Nat.mod_lt _ (primes_pos i)

theorem item_to_state_lt (sha256 : Item → Hash) (item : Item)
    (i : Fin SETSUM_COLUMNS) : item_to_state sha256 item i < SETSUM_PRIMES i :=
  hash_to_state_lt _ i

/-- On inputs at most the prime the wrapping subtraction in `invert_state`
does not underflow: it is the exact difference. -/
theorem invert_state_exact (s : State) (i : Fin SETSUM_COLUMNS)
    (h : s i ≤ SETSUM_PRIMES i) :
    invert_state s i = SETSUM_PRIMES i - s i := by
  have hw : SETSUM_PRIMES i < U32_WRAP := primes_lt_wrap i
  show (SETSUM_PRIMES i + U32_WRAP - s i) % U32_WRAP = SETSUM_PRIMES i - s i
  have he : SETSUM_PRIMES i + U32_WRAP - s i =
      (SETSUM_PRIMES i - s i) + U32_WRAP := by omega
  rw [he, Nat.add_mod_right, Nat.mod_eq_of_lt (by omega)]

/-! ### The residue view of states

Each column lives in the cyclic group `ZMod (SETSUM_PRIMES i)`; casting a
state columnwise gives an additive-group picture in which `add_state` is `+`
and `invert_state` (on in-range inputs) is negation. -/

instance (i : Fin SETSUM_COLUMNS) : NeZero (SETSUM_PRIMES i) :=
  ⟨(primes_pos i).ne'⟩

/-- The product of the per-column residue groups. -/
abbrev Residues := ∀ i : Fin SETSUM_COLUMNS, ZMod (SETSUM_PRIMES i)

/-- Columnwise cast of a state into the residue groups. -/
def toRes (s : State) : Residues :=
  fun i => (s i : ZMod (SETSUM_PRIMES i))

theorem toRes_add_state (a b : State) : toRes (add_state a b) = toRes a + toRes b := by
  funext i
  show (((a i + b i) % SETSUM_PRIMES i : ℕ) : ZMod (SETSUM_PRIMES i)) =
    (a i : ZMod (SETSUM_PRIMES i)) + (b i : ZMod (SETSUM_PRIMES i))
  rw [ZMod.natCast_mod, Nat.cast_add]

theorem toRes_invert_state (a : State) (h : ∀ i, a i ≤ SETSUM_PRIMES i) :
    toRes (invert_state a) = -toRes a := by
  funext i
  show ((invert_state a i : ℕ) : ZMod (SETSUM_PRIMES i)) =
    -(a i : ZMod (SETSUM_PRIMES i))
  rw [invert_state_exact a i (h i), Nat.cast_sub (h i), ZMod.natCast_self,
    zero_sub]

theorem toRes_inj (a b : State) (ha : isReduced a) (hb : isReduced b)
    (h : toRes a = toRes b) : a = b := by
  funext i
  have hi := congrFun h i
  calc a i = ((a i : ZMod (SETSUM_PRIMES i))).val := (ZMod.val_cast_of_lt (ha i)).symm
    _ = ((b i : ZMod (SETSUM_PRIMES i))).val := by rw [show ((a i : ZMod (SETSUM_PRIMES i))) = (b i : ZMod (SETSUM_PRIMES i)) from hi]
    _ = b i := ZMod.val_cast_of_lt (hb i)

theorem setsum_eq_of_toRes (s1 s2 : Setsum) (h1 : isReduced s1.state)
    (h2 : isReduced s2.state) (h : toRes s1.state = toRes s2.state) : s1 = s2 := by
  cases s1 with
  | mk st1 =>
    cases s2 with
    | mk st2 => exact congrArg Setsum.mk (toRes_inj st1 st2 h1 h2 h)

/-! ### Lists of insertions and removals -/

/-- The residue-group sum of the item states of a list of items. -/
def itemsSum (sha256 : Item → Hash) (l : List Item) : Residues :=
  (l.map (fun x => toRes (item_to_state sha256 x))).sum

theorem itemsSum_perm (sha256 : Item → Hash) {l1 l2 : List Item}
    (h : List.Perm l1 l2) : itemsSum sha256 l1 = itemsSum sha256 l2 := by
  unfold itemsSum
  exact List.Perm.sum_eq (h.map (fun x => toRes (item_to_state sha256 x)))

theorem itemsSum_append (sha256 : Item → Hash) (l1 l2 : List Item) :
    itemsSum sha256 (l1 ++ l2) = itemsSum sha256 l1 + itemsSum sha256 l2 := by
  simp [itemsSum]

theorem toRes_insertList (sha256 : Item → Hash) (l : List Item) (s : Setsum) :
    toRes (Setsum.insertList sha256 s l).state =
      toRes s.state + itemsSum sha256 l := by
  induction l generalizing s with
  | nil => simp [Setsum.insertList, itemsSum]
  | cons a t ih =>
    have step : (Setsum.insertList sha256 s (a :: t)) =
        Setsum.insertList sha256 (s.insert sha256 a) t := rfl
    rw [step, ih]
    have hins : toRes (s.insert sha256 a).state =
        toRes s.state + toRes (item_to_state sha256 a) := toRes_add_state _ _
    rw [hins]
    simp only [itemsSum, List.map_cons, List.sum_cons]
    abel

theorem toRes_removeList (sha256 : Item → Hash) (l : List Item) (s : Setsum) :
    toRes (Setsum.removeList sha256 s l).state =
      toRes s.state - itemsSum sha256 l := by
  induction l generalizing s with
  | nil => simp [Setsum.removeList, itemsSum]
  | cons a t ih =>
    have step : (Setsum.removeList sha256 s (a :: t)) =
        Setsum.removeList sha256 (s.remove sha256 a) t := rfl
    rw [step, ih]
    have hrem : toRes (s.remove sha256 a).state =
        toRes s.state - toRes (item_to_state sha256 a) := by
      have hle : ∀ i, item_to_state sha256 a i ≤ SETSUM_PRIMES i :=
        fun i => le_of_lt (item_to_state_lt sha256 a i)
      have := toRes_add_state s.state (invert_state (item_to_state sha256 a))
      rw [toRes_invert_state _ hle] at this
      rw [show toRes (s.remove sha256 a).state =
        toRes s.state + -toRes (item_to_state sha256 a) from this]
      abel
    rw [hrem]
    simp only [itemsSum, List.map_cons, List.sum_cons]
    abel

theorem insertList_reduced (sha256 : Item → Hash) (l : List Item) (s : Setsum)
    (hs : isReduced s.state) :
    isReduced (Setsum.insertList sha256 s l).state := by
  induction l generalizing s with
  | nil => exact hs
  | cons a t ih => exact ih (s.insert sha256 a) (add_state_reduced _ _)

theorem removeList_reduced (sha256 : Item → Hash) (l : List Item) (s : Setsum)
    (hs : isReduced s.state) :
    isReduced (Setsum.removeList sha256 s l).state := by
  induction l generalizing s with
  | nil => exact hs
  | cons a t ih => exact ih (s.remove sha256 a) (add_state_reduced _ _)

theorem default_reduced : isReduced Setsum.default.state :=
  zero_state_reduced

/-! ### Claim theorems -/

/-- C1, counterexample: for the state with every column equal to `u32::MAX`
(a legal `[u32; 8]` value, but larger than the primes), `add_state` of the
state and its `invert_state` image is not the all-zero state, because the
`u32` subtraction inside `invert_state` wraps around. -/
theorem setsum_c1_counterexample :
    add_state u32_max_state (invert_state u32_max_state) ≠ zero_state := by
  decide

/-- C1 (amended): for every state vector whose columns are at most their
primes — in particular every reduced state — `add_state` of the state and its
`invert_state` image yields the all-zero state in every column. -/
theorem setsum_c1_amended (state : State)
    (h : ∀ i, state i ≤ SETSUM_PRIMES i) :
    add_state state (invert_state state) = zero_state := by
  funext i
  show (state i + invert_state state i) % SETSUM_PRIMES i = 0
  rw [invert_state_exact state i (h i), Nat.add_sub_cancel' (h i), Nat.mod_self]

/-- C1, witness: the amended statement applied to a concrete state. -/
theorem setsum_c1_witness :
    (∀ i, sample_state i ≤ SETSUM_PRIMES i) ∧
      add_state sample_state (invert_state sample_state) = zero_state :=
  ⟨by decide, setsum_c1_amended sample_state (by decide)⟩

/-- C6: starting from `Setsum::default()`, any sequence of the public
operations `insert`, `remove`, `+` and `-` keeps every stored column value
strictly below its prime. -/
theorem setsum_c6_invariant (sha256 : Item → Hash) (ops : List SetsumOp)
    (i : Fin SETSUM_COLUMNS) :
    (applyOps sha256 ops).state i < SETSUM_PRIMES i := by
  suffices h : isReduced (applyOps sha256 ops).state from h i
  have hfold : ∀ (l : List SetsumOp) (s : Setsum), isReduced s.state →
      isReduced (l.foldl (applyOp sha256) s).state := by
    intro l
    induction l with
    | nil => exact fun s hs => hs
    | cons op t ih =>
      intro s hs
      apply ih
      cases op with
      | insert item => exact add_state_reduced _ _
      | remove item => exact add_state_reduced _ _
      | add other => exact add_state_reduced _ _
      | sub other => exact add_state_reduced _ _
  exact hfold ops Setsum.default default_reduced

/-- C7: the assertion `sum <= u32::MAX` in `add_state` never fails: on every
pair of states the checked version returns the modular sum, never the error
branch. -/
theorem setsum_c7_assert_unreachable (lhs rhs : State) :
    add_state_checked lhs rhs = some (add_state lhs rhs) := by
  have hcond : ∀ i, (lhs i + rhs i) % SETSUM_PRIMES i ≤ U32_MAX := fun i =>
    le_trans (Nat.le_of_lt (Nat.mod_lt _ (primes_pos i))) (primes_le_u32_max i)
  unfold add_state_checked
  rw [if_pos hcond]

/-- C8: on every hash, column `i` of `hash_to_state` is the little-endian
32-bit interpretation of bytes `4*i..4*i+4` reduced modulo the column prime,
and it is strictly below that prime. -/
theorem setsum_c8_hash_to_state (hash : Hash) (i : Fin SETSUM_COLUMNS) :
    hash_to_state hash i = le32_spec hash i % SETSUM_PRIMES i ∧
      hash_to_state hash i < SETSUM_PRIMES i := by
  constructor
  · have e0 : byteIdx i 0 =
        ⟨4 * i.val, by have h : i.val < 8 := i.isLt; show 4 * i.val < 32; omega⟩ := by
      apply Fin.ext
      show i.val * 4 + (0 : Fin SETSUM_BYTES_PER_COLUMN).val = 4 * i.val
      have : (0 : Fin SETSUM_BYTES_PER_COLUMN).val = 0 := rfl
      omega
    have e1 : byteIdx i 1 =
        ⟨4 * i.val + 1, by
          have h : i.val < 8 := i.isLt; show 4 * i.val + 1 < 32; omega⟩ := by
      apply Fin.ext
      show i.val * 4 + (1 : Fin SETSUM_BYTES_PER_COLUMN).val = 4 * i.val + 1
      have : (1 : Fin SETSUM_BYTES_PER_COLUMN).val = 1 := rfl
      omega
    have e2 : byteIdx i 2 =
        ⟨4 * i.val + 2, by
          have h : i.val < 8 := i.isLt; show 4 * i.val + 2 < 32; omega⟩ := by
      apply Fin.ext
      show i.val * 4 + (2 : Fin SETSUM_BYTES_PER_COLUMN).val = 4 * i.val + 2
      have : (2 : Fin SETSUM_BYTES_PER_COLUMN).val = 2 := rfl
      omega
    have e3 : byteIdx i 3 =
        ⟨4 * i.val + 3, by
          have h : i.val < 8 := i.isLt; show 4 * i.val + 3 < 32; omega⟩ := by
      apply Fin.ext
      show i.val * 4 + (3 : Fin SETSUM_BYTES_PER_COLUMN).val = 4 * i.val + 3
      have : (3 : Fin SETSUM_BYTES_PER_COLUMN).val = 3 := rfl
      omega
    show u32_from_le_bytes (hash (byteIdx i 0)) (hash (byteIdx i 1))
        (hash (byteIdx i 2)) (hash (byteIdx i 3)) % SETSUM_PRIMES i =
      le32_spec hash i % SETSUM_PRIMES i
    rw [e0, e1, e2, e3]
    unfold u32_from_le_bytes le32_spec
    norm_num
    ring_nf
  · exact hash_to_state_lt hash i

/-- C9: `Setsum::default()` has the all-zero state, the digest is exactly
`SETSUM_BYTES = 32` bytes, and every byte of its digest is zero. -/
theorem setsum_c9_default_digest :
    SETSUM_BYTES = 32 ∧ (∀ i, Setsum.default.state i = 0) ∧
      (∀ j, Setsum.default.digest j = 0) := by
  decide

theorem toRes_zero_state : toRes zero_state = 0 := by
  funext i
  show ((0 : ℕ) : ZMod (SETSUM_PRIMES i)) = 0
  simp

theorem toRes_default : toRes Setsum.default.state = 0 :=
  toRes_zero_state

/-- C2: inserting a list of items into `Setsum::default()` and inserting any
permutation of it produce identical digests. -/
theorem setsum_c2_order_independence (sha256 : Item → Hash) (l1 l2 : List Item)
    (h : List.Perm l1 l2) :
    (Setsum.insertList sha256 Setsum.default l1).digest =
      (Setsum.insertList sha256 Setsum.default l2).digest := by
  have hs : Setsum.insertList sha256 Setsum.default l1 =
      Setsum.insertList sha256 Setsum.default l2 := by
    apply setsum_eq_of_toRes _ _ (insertList_reduced _ _ _ default_reduced)
      (insertList_reduced _ _ _ default_reduced)
    rw [toRes_insertList, toRes_insertList, itemsSum_perm sha256 h]
  rw [hs]

/-- C2, witness: the theorem applied to a concrete permuted pair of lists. -/
theorem setsum_c2_witness :
    List.Perm ([[1], [2, 3]] : List Item) [[2, 3], [1]] ∧
      (Setsum.insertList sample_sha Setsum.default [[1], [2, 3]]).digest =
        (Setsum.insertList sample_sha Setsum.default [[2, 3], [1]]).digest :=
  ⟨by decide, setsum_c2_order_independence sample_sha _ _ (by decide)⟩

/-- C3: inserting then removing an item (or removing then inserting it)
restores the digest of any in-invariant `Setsum`, and inserting a list of
items into `Setsum::default()` and then removing any permutation of it
restores the default digest. -/
theorem setsum_c3_inverse_cancellation (sha256 : Item → Hash) (s : Setsum)
    (hs : isReduced s.state) (x : Item) (l l2 : List Item)
    (hperm : List.Perm l l2) :
    ((s.insert sha256 x).remove sha256 x).digest = s.digest ∧
      ((s.remove sha256 x).insert sha256 x).digest = s.digest ∧
      (Setsum.removeList sha256 (Setsum.insertList sha256 Setsum.default l)
          l2).digest = Setsum.default.digest := by
  have hle : ∀ i, item_to_state sha256 x i ≤ SETSUM_PRIMES i := fun i =>
    le_of_lt (item_to_state_lt sha256 x i)
  have h1 : (s.insert sha256 x).remove sha256 x = s := by
    apply setsum_eq_of_toRes _ _ (add_state_reduced _ _) hs
    show toRes (add_state (add_state s.state (item_to_state sha256 x))
        (invert_state (item_to_state sha256 x))) = toRes s.state
    rw [toRes_add_state, toRes_add_state, toRes_invert_state _ hle]
    abel
  have h2 : (s.remove sha256 x).insert sha256 x = s := by
    apply setsum_eq_of_toRes _ _ (add_state_reduced _ _) hs
    show toRes (add_state (add_state s.state
        (invert_state (item_to_state sha256 x))) (item_to_state sha256 x)) =
      toRes s.state
    rw [toRes_add_state, toRes_add_state, toRes_invert_state _ hle]
    abel
  have h3 : Setsum.removeList sha256
      (Setsum.insertList sha256 Setsum.default l) l2 = Setsum.default := by
    apply setsum_eq_of_toRes _ _
      (removeList_reduced _ _ _ (insertList_reduced _ _ _ default_reduced))
      default_reduced
    rw [toRes_removeList, toRes_insertList, itemsSum_perm sha256 hperm]
    abel
  exact ⟨congrArg Setsum.digest h1, congrArg Setsum.digest h2,
    congrArg Setsum.digest h3⟩

/-- C3, witness: the theorem applied to concrete inputs. -/
theorem setsum_c3_witness :
    isReduced Setsum.default.state ∧
      List.Perm ([[1], [2]] : List Item) [[2], [1]] ∧
      (((Setsum.default.insert sample_sha [7]).remove sample_sha [7]).digest =
          Setsum.default.digest ∧
        ((Setsum.default.remove sample_sha [7]).insert sample_sha [7]).digest =
          Setsum.default.digest ∧
        (Setsum.removeList sample_sha
            (Setsum.insertList sample_sha Setsum.default [[1], [2]])
            [[2], [1]]).digest = Setsum.default.digest) :=
  ⟨by decide, by decide,
    setsum_c3_inverse_cancellation sample_sha Setsum.default (by decide) [7]
      [[1], [2]] [[2], [1]] (by decide)⟩

/-- C4: for any multiset of items split into two groups (each inserted in any
order), adding the two group setsums equals inserting the whole multiset into
one default setsum, digest-wise. -/
theorem setsum_c4_merge_decomposition (sha256 : Item → Hash)
    (g1 g2 l : List Item) (h : List.Perm l (g1 ++ g2)) :
    ((Setsum.insertList sha256 Setsum.default g1).add
        (Setsum.insertList sha256 Setsum.default g2)).digest =
      (Setsum.insertList sha256 Setsum.default l).digest := by
  have hs : (Setsum.insertList sha256 Setsum.default g1).add
      (Setsum.insertList sha256 Setsum.default g2) =
      Setsum.insertList sha256 Setsum.default l := by
    apply setsum_eq_of_toRes _ _ (add_state_reduced _ _)
      (insertList_reduced _ _ _ default_reduced)
    show toRes (add_state (Setsum.insertList sha256 Setsum.default g1).state
        (Setsum.insertList sha256 Setsum.default g2).state) =
      toRes (Setsum.insertList sha256 Setsum.default l).state
    rw [toRes_add_state, toRes_insertList, toRes_insertList, toRes_insertList,
      itemsSum_perm sha256 h, itemsSum_append, toRes_default]
    abel
  rw [hs]

/-- C4, witness: the theorem applied to a concrete partition. -/
theorem setsum_c4_witness :
    List.Perm ([[1], [2], [3]] : List Item) ([[1], [2]] ++ [[3]]) ∧
      ((Setsum.insertList sample_sha Setsum.default [[1], [2]]).add
          (Setsum.insertList sample_sha Setsum.default [[3]])).digest =
        (Setsum.insertList sample_sha Setsum.default [[1], [2], [3]]).digest :=
  ⟨by decide,
    setsum_c4_merge_decomposition sample_sha [[1], [2]] [[3]]
      [[1], [2], [3]] (by decide)⟩

/-- C5: if the multiset `big` splits into `small ++ rest` (up to order), then
subtracting the setsum of `small` from the setsum of `big` equals the setsum
of `rest`, digest-wise. -/
theorem setsum_c5_subtractive_decomposition (sha256 : Item → Hash)
    (big small rest : List Item) (h : List.Perm big (small ++ rest)) :
    ((Setsum.insertList sha256 Setsum.default big).sub
        (Setsum.insertList sha256 Setsum.default small)).digest =
      (Setsum.insertList sha256 Setsum.default rest).digest := by
  have hs : (Setsum.insertList sha256 Setsum.default big).sub
      (Setsum.insertList sha256 Setsum.default small) =
      Setsum.insertList sha256 Setsum.default rest := by
    apply setsum_eq_of_toRes _ _ (add_state_reduced _ _)
      (insertList_reduced _ _ _ default_reduced)
    have hle : ∀ i, (Setsum.insertList sha256 Setsum.default small).state i ≤
        SETSUM_PRIMES i := fun i =>
      le_of_lt (insertList_reduced sha256 small Setsum.default default_reduced i)
    show toRes (add_state (Setsum.insertList sha256 Setsum.default big).state
        (invert_state (Setsum.insertList sha256 Setsum.default small).state)) =
      toRes (Setsum.insertList sha256 Setsum.default rest).state
    rw [toRes_add_state, toRes_invert_state _ hle, toRes_insertList,
      toRes_insertList, toRes_insertList, itemsSum_perm sha256 h,
      itemsSum_append, toRes_default]
    abel
  rw [hs]

/-- C5, witness: the theorem applied to a concrete sub-multiset. -/
theorem setsum_c5_witness :
    List.Perm ([[1], [2], [3]] : List Item) ([[2]] ++ [[1], [3]]) ∧
      ((Setsum.insertList sample_sha Setsum.default [[1], [2], [3]]).sub
          (Setsum.insertList sample_sha Setsum.default [[2]])).digest =
        (Setsum.insertList sample_sha Setsum.default [[1], [3]]).digest :=
  ⟨by decide,
    setsum_c5_subtractive_decomposition sample_sha [[1], [2], [3]] [[2]]
      [[1], [3]] (by decide)⟩

/-- C10: `invert_state` sends a zero column to the full prime (a nonzero
value outside the reduced range), and subtracting `Setsum::default()` from
any in-invariant `Setsum` returns a structurally equal `Setsum`, because
`add_state` reduces the transient out-of-range value modulo the prime. -/
theorem setsum_c10_sub_default (s : Setsum) (hs : isReduced s.state) :
    (∀ i, invert_state zero_state i = SETSUM_PRIMES i) ∧
      (∀ i, ¬invert_state zero_state i < SETSUM_PRIMES i) ∧
      (∀ i, invert_state zero_state i ≠ 0) ∧
      s.sub Setsum.default = s := by
  refine ⟨by decide, by decide, by decide, ?_⟩
  apply setsum_eq_of_toRes _ _ (add_state_reduced _ _) hs
  show toRes (add_state s.state (invert_state zero_state)) = toRes s.state
  rw [toRes_add_state,
    toRes_invert_state zero_state (fun i => Nat.zero_le _), toRes_zero_state]
  abel

/-- C10, witness: the theorem applied to a concrete reduced `Setsum`. -/
theorem setsum_c10_witness :
    isReduced sample_setsum.state ∧
      ((∀ i, invert_state zero_state i = SETSUM_PRIMES i) ∧
        (∀ i, ¬invert_state zero_state i < SETSUM_PRIMES i) ∧
        (∀ i, invert_state zero_state i ≠ 0) ∧
        sample_setsum.sub Setsum.default = sample_setsum) :=
  ⟨by decide, setsum_c10_sub_default sample_setsum (by decide)⟩
